import Mathlib

set_option maxHeartbeats 1000000

/-!
Verification development for the qhbm-library energy-based inference engine.

The definitions below shallowly embed the code of
`qhbmlib/inference/ebm.py` and `qhbmlib/inference/ebm_utils.py`.
Tensors are represented as (nested) lists of numbers, bitstrings as lists of
booleans, and the stateful inference engine as an explicit state machine.
Float tensor arithmetic that only uses field operations is embedded over the
rationals (so every definition is executable); values produced by the
transcendental functions `log` and `exp` are embedded over the reals.
Nested tensor structures passed through `tf.nest` are represented in
flattened form (a list of atomic components), and the atomic components of
function values are represented componentwise, so a tensor-valued atom
appears as a list of scalar components; all summations over inner indices
performed by the code are therefore ordinary sums over these components.
-/

/-- A bitstring: one row of a 2D sample tensor. -/
abbrev Bitstring := List Bool

/-- Modelled from the spec: `qhbmlib/utils.py` is not under `src/`.  The spec
describes the bitstring utilities as "dedup bitstrings with multiplicity":
unique rows in order of first occurrence.  This returns the deduplicated
list. -/
def uniques {α : Type} [DecidableEq α] : List α → List α
  | [] => []
  | a :: t => a :: (uniques t).filter (fun b => b ≠ a)

/-- Modelled from the spec: `utils.unique_bitstrings_with_counts`, returning
the unique rows together with the multiplicity of each unique row (counts sum
to the original number of rows). -/
def uniqueBitstringsWithCounts {α : Type} [DecidableEq α] (l : List α) :
    List α × List ℕ :=
  (uniques l, (uniques l).map (fun u => l.count u))

/-- Multiplicity of a row in a sample batch (the count paired with each
unique row). -/
def countOf {α : Type} [DecidableEq α] (l : List α) (a : α) : ℕ := l.count a

/-- Dot product of a count vector with a value vector (the numerator of the
weighted average). -/
def dotP (counts : List ℕ) (xs : List ℚ) : ℚ :=
  (List.zipWith (fun (c : ℕ) (x : ℚ) => (c : ℚ) * x) counts xs).sum

/-- Modelled from the spec: `utils.weighted_average(counts, values)`, the
count-weighted average `Σ_i counts_i * values_i / Σ_i counts_i`. -/
def weightedAverage (counts : List ℕ) (xs : List ℚ) : ℚ :=
  dotP counts xs / (counts.sum : ℚ)

/-- Contraction (dot product) of two flat vectors, used for the contraction
of an upstream gradient with function values. -/
def dotR (a b : List ℚ) : ℚ :=
  (List.zipWith (fun x y => x * y) a b).sum

/-- Columnwise sum of a stack of equal-length vectors: the embedding of
`tf.reduce_sum(tf.stack(ls), 0)`. -/
def stackSum : List (List ℚ) → List ℚ
  | [] => []
  | [r] => r
  | r :: s :: t => List.zipWith (fun x y => x + y) r (stackSum (s :: t))

/-- Atom-major representation of `function(bitstrings)`: component `i` of the
(flattened) function output, evaluated at every unique bitstring.  This is the
embedding of the batch tensor whose first index is the bitstring. -/
def atomsOf (K : ℕ) (F : Bitstring → List ℚ) (bits : List Bitstring) :
    List (List ℚ) :=
  (List.range K).map (fun i => bits.map (fun x => (F x).getD i 0))

/-- Componentwise count-weighted average of a batch of rows (row index =
bitstring, column index = component). -/
def avgRows (counts : List ℕ) (rows : List (List ℚ)) : List ℚ :=
  (stackSum (List.zipWith (fun (c : ℕ) (r : List ℚ) => r.map (fun v => (c : ℚ) * v))
    counts rows)).map (fun v => v / (counts.sum : ℚ))

/-- Forward pass of `EnergyInference._expectation` (ebm.py lines 264-276):
deduplicate the drawn samples into (bitstrings, counts), evaluate the function
on the unique bitstrings, and return the count-weighted average of each
component. -/
def expectationForward (K : ℕ) (F : Bitstring → List ℚ)
    (samples : List Bitstring) : List ℚ :=
  let bits := (uniqueBitstringsWithCounts samples).1
  let counts := (uniqueBitstringsWithCounts samples).2
  (atomsOf K F bits).map (fun col => weightedAverage counts col)

/-- Final combination `fs - ms + ls` over the three per-variable summand
lists (ebm.py lines 440-443). -/
def combineSummands : List ℚ → List ℚ → List ℚ → List ℚ
  | fs :: fr, ms :: mr, ls :: lr => (fs - ms + ls) :: combineSummands fr mr lr
  | _, _, _ => []

/-- Backward pass `grad_fn` of `EnergyInference._expectation` (ebm.py lines
278-443), translated step by step.  `F` is the function whose expectation is
taken, `jacs` gives for each energy parameter the per-bitstring energy
derivative (the tape jacobian of the energies), and `fjacs` gives for each
parameter the per-bitstring derivative of the function values (the recording
of `values_tape`, whose `gradient` call with `output_gradients = upstream`
is modelled in `last_summand` below via linearity of the weighted average).
Atoms are scalar components, so the code's reductions over inner indices
(`reduce_sum` inside `sum_dg_dfi_times_fi` and the `map_fn` in
`combined_flat_sum`) are identities here and the einsum `"i...,i->i..."`
is an elementwise product over bitstrings. -/
def expectationGradFn (K : ℕ) (F : Bitstring → List ℚ)
    (jacs : List (Bitstring → ℚ)) (fjacs : List (Bitstring → List ℚ))
    (samples : List Bitstring) (upstream : List ℚ) : List ℚ :=
  let bits := (uniqueBitstringsWithCounts samples).1
  let counts := (uniqueBitstringsWithCounts samples).2
  let values := atomsOf K F bits
  let average_of_values := values.map (fun col => weightedAverage counts col)
  let dg_dfi := upstream
  let dg_dfi_times_fi := List.zipWith (fun x y => x * y) dg_dfi average_of_values
  let i_sum_dg_dfi_times_fi := dg_dfi_times_fi.sum
  let energies_grads := jacs.map (fun g => bits.map g)
  let average_of_energies_grads := energies_grads.map (fun v => weightedAverage counts v)
  let first_summand := average_of_energies_grads.map (fun x => x * i_sum_dg_dfi_times_fi)
  let fi_x := values
  let combined_flat := List.zipWith (fun d col => col.map (fun v => d * v)) dg_dfi fi_x
  let combined_sum := stackSum combined_flat
  let energy_times_combined_sum :=
    energies_grads.map (fun gvec => List.zipWith (fun x y => x * y) gvec combined_sum)
  let middle_summand := energy_times_combined_sum.map (fun v => weightedAverage counts v)
  let last_summand :=
    fjacs.map (fun fj =>
      dotR upstream ((atomsOf K fj bits).map (fun col => weightedAverage counts col)))
  combineSummands first_summand middle_summand last_summand

/-- The plain (unweighted) componentwise mean of the function values over the
raw, un-deduplicated samples: the specification-level description of the
forward pass value. -/
def specAverage (F : Bitstring → List ℚ) (samples : List Bitstring) : List ℚ :=
  (stackSum (samples.map F)).map (fun v => v / (samples.length : ℚ))

/-- Term 1 of the claimed gradient identity, following the spec's words: the
count-weighted average of the per-bitstring energy gradient, times the total
contraction of the upstream gradient with the averaged function values. -/
def specTermOne (counts : List ℕ) (bits : List Bitstring) (upstream : List ℚ)
    (F : Bitstring → List ℚ) (g : Bitstring → ℚ) : ℚ :=
  weightedAverage counts (bits.map g) * dotR upstream (avgRows counts (bits.map F))

/-- Term 2 of the claimed gradient identity, following the spec's words: the
count-weighted average over unique bitstrings of the per-bitstring energy
gradient times the per-bitstring contraction of the upstream gradient with
the unaveraged function values. -/
def specTermTwo (counts : List ℕ) (bits : List Bitstring) (upstream : List ℚ)
    (F : Bitstring → List ℚ) (g : Bitstring → ℚ) : ℚ :=
  weightedAverage counts (bits.map (fun x => g x * dotR upstream (F x)))

/-- Term 3 of the claimed gradient identity, following the spec's words: the
tape gradient of the count-weighted average with respect to the parameter,
holding the sampled bitstrings fixed (the contraction of the upstream
gradient with the weighted average of the per-bitstring function
derivative). -/
def specTermThree (counts : List ℕ) (bits : List Bitstring) (upstream : List ℚ)
    (fj : Bitstring → List ℚ) : ℚ :=
  dotR upstream (avgRows counts (bits.map fj))

/-- The claimed backward-pass value: for every parameter,
Term1 - Term2 + Term3. -/
def specGradient (F : Bitstring → List ℚ) (jacs : List (Bitstring → ℚ))
    (fjacs : List (Bitstring → List ℚ)) (samples : List Bitstring)
    (upstream : List ℚ) : List ℚ :=
  let bits := (uniqueBitstringsWithCounts samples).1
  let counts := (uniqueBitstringsWithCounts samples).2
  combineSummands
    (jacs.map (fun g => specTermOne counts bits upstream F g))
    (jacs.map (fun g => specTermTwo counts bits upstream F g))
    (fjacs.map (fun fj => specTermThree counts bits upstream fj))

/-- Embedding of `_relaxed_categorical_ratio` (ebm_utils.py lines 41-56): the
mixing weight `log(num_unique + 1)` divided by
`reduce_logsumexp([num_bits * log 2, 0]) = log(exp(num_bits * log 2) + exp 0)`. -/
noncomputable def categoricalWeight (num_bits num_unique : ℕ) : ℝ :=
  Real.log ((num_unique : ℝ) + 1) /
    Real.log (Real.exp ((num_bits : ℝ) * Real.log 2) + Real.exp 0)

/-- The uniform probability of a single bitstring,
`tf.math.pow(2.0, -num_bits)`. -/
noncomputable def uniformProb (num_bits : ℕ) : ℝ := ((2 : ℝ) ^ num_bits)⁻¹

/-- Number of bits per sample, `tf.shape(category_samples)[1]`. -/
def numBitsOf (category_samples : List Bitstring) : ℕ :=
  (category_samples.headD []).length

/-- Embedding of `get_bitstring_index` inside
`relaxed_categorical_probabilities` (ebm_utils.py lines 87-91): the first
index at which the bitstring equals a unique sample, and `num_unique` when
there is no match. -/
def firstMatchIndex (us : List Bitstring) (b : Bitstring) : ℕ :=
  us.findIdx (fun u => u = b)

/-- Embedding of `relaxed_categorical_probabilities` (ebm_utils.py lines
59-93). -/
noncomputable def relaxedCategoricalProbabilities
    (category_samples input_samples : List Bitstring) : List ℝ :=
  let us := (uniqueBitstringsWithCounts category_samples).1
  let counts := (uniqueBitstringsWithCounts category_samples).2
  let normalizing_constant := counts.sum
  let categorical_probs := counts.map (fun (c : ℕ) => (c : ℝ) / (normalizing_constant : ℝ))
  let num_unique := us.length
  let nb := numBitsOf category_samples
  let w := categoricalWeight nb num_unique
  let expanded_categorical_probs := categorical_probs.map (fun p => w * p) ++ [0]
  let expanded_uniform_probs := List.replicate (num_unique + 1) ((1 - w) * uniformProb nb)
  let possible_probs :=
    List.zipWith (fun x y => x + y) expanded_categorical_probs expanded_uniform_probs
  input_samples.map (fun b => possible_probs.getD (firstMatchIndex us b) 0)

/-- Embedding of the `resample_choices` loop of `relaxed_categorical_samples`
(ebm_utils.py lines 119-127): the Bernoulli coin flips (one per requested
resample, `false` embedding flip value 0, which selects the categorical
branch) are deduplicated, and each unique flip row's count is added to the
slot selected by its first element. -/
def resampleChoicesOf (flips : List Bool) : ℕ × ℕ :=
  let rows := flips.map (fun b => [b])
  let rcS := (uniqueBitstringsWithCounts rows).1
  let rcC := (uniqueBitstringsWithCounts rows).2
  (List.zip rcS rcC).foldl (fun acc p =>
    let acc1 := if p.1.head? = some false then (acc.1 + p.2, acc.2) else acc
    if p.1.head? = some true then (acc1.1, acc1.2 + p.2) else acc1) (0, 0)

/-- Embedding of `relaxed_categorical_samples` (ebm_utils.py lines 96-136).
The two samplers are supplied as oracles: `catIdx i` is the i-th index drawn
from the empirical categorical (gathered from the unique samples) and
`unifRow i` is the i-th fresh uniform bitstring draw. -/
def relaxedCategoricalSamples (category_samples : List Bitstring)
    (flips : List Bool) (catIdx : ℕ → ℕ) (unifRow : ℕ → Bitstring) :
    List Bitstring :=
  let us := (uniqueBitstringsWithCounts category_samples).1
  let nc := (resampleChoicesOf flips).1
  let nu := (resampleChoicesOf flips).2
  ((List.range nc).map (fun i => us.getD (catIdx i) [])) ++
    ((List.range nu).map unifRow)

/-- Spin value of a bit, `1 - 2 * bit` (so bit 0 is spin +1, bit 1 is
spin -1). -/
noncomputable def spinOf (b : Bool) : ℝ := 1 - 2 * (if b then (1 : ℝ) else 0)

/-- Modelled from the spec: `models/energy.py` (class `BernoulliEnergy`) is
not under `src/`.  Per spec section 4.4 the energy is a per-bit linear spin
form whose per-spin parameter is half the corresponding Bernoulli logit, so
the energy of a bitstring is `Σ_i (logit_i / 2) * spin(x_i)` (this makes the
bit-i marginal odds `exp(logit_i)`, matching "each bit is an independent
Bernoulli variable" and the `thetas = 0.5 * logits` of
`BernoulliEnergyInference._log_partition_forward_pass`). -/
noncomputable def bernoulliEnergy (logits : List ℝ) (x : List Bool) : ℝ :=
  (List.zipWith (fun l b => (l / 2) * spinOf b) logits x).sum

/-- Embedding of `BernoulliEnergyInference._log_partition_forward_pass`
(ebm.py lines 620-631): with `thetas = 0.5 * logits`, the sum over spins of
`log(exp(theta) + exp(-theta))`. -/
noncomputable def bernoulliLogPartition (logits : List ℝ) : ℝ :=
  (logits.map (fun l => Real.log (Real.exp (l / 2) + Real.exp (-(l / 2))))).sum

/-- Embedding of `itertools.product([0, 1], repeat = n)` (ebm.py lines
519-521): every bitstring of width n, first bit varying slowest. -/
def allBitstrings : ℕ → List (List Bool)
  | 0 => [[]]
  | n + 1 =>
    (allBitstrings n).map (fun x => false :: x) ++
      (allBitstrings n).map (fun x => true :: x)

/-- Embedding of `AnalyticEnergyInference._log_partition_forward_pass`
(ebm.py lines 556-559): the log-sum-exp of the logits, which are the negated
energies of all bitstrings. -/
noncomputable def analyticLogPartition (E : List Bool → ℝ) (n : ℕ) : ℝ :=
  Real.log (((allBitstrings n).map (fun x => Real.exp (-E x))).sum)

/-- Embedding of the `energy_grad` closure inside
`EnergyInference._log_partition_grad_generator` (ebm.py lines 474-482): the
function mapping a bitstring to its per-parameter energy derivative, handed
to the engine's own expectation operation. -/
def energyGradFunction (jacs : List (Bitstring → ℚ)) : Bitstring → List ℚ :=
  fun x => jacs.map (fun g => g x)

/-- Forward pass of `EnergyInference._log_partition` (ebm.py lines 452-459):
the value is the subclass-supplied `_log_partition_forward_pass` result. -/
def logPartitionValue (forward_pass : ℝ) : ℝ := forward_pass

/-- Backward pass of `EnergyInference._log_partition` (ebm.py lines 468-489):
for each parameter, `upstream * (-1 * ege)` where the `ege` list is the value
of the engine's own expectation operation applied to the energy-jacobian
function. -/
def logPartitionGradFn (jacs : List (Bitstring → ℚ)) (samples : List Bitstring)
    (upstream : ℚ) : List ℚ :=
  (expectationForward jacs.length (energyGradFunction jacs) samples).map
    (fun ege => upstream * (-1 * ege))

/-- Mutable per-engine state of `EnergyInferenceBase` (ebm.py lines 59-95):
the tracked parameter values, their checkpoint, the subclass cache written by
`_ready_inference`, the PRNG seed, the auto-update-seed flag and the
first-inference flag. -/
structure EBMState (P C S : Type) where
  params : P
  checkpoint : P
  cache : C
  seed : S
  update_seed : Bool
  first_inference : Bool
deriving DecidableEq

/-- The fixed (construction-time) data of an energy inference engine:
whether any parameters are tracked (`self._checkpoint`), the
`_ready_inference` cache derivation, the seed splitter
(`tfp.random.split_seed`), the seed sanitizer (`tfp.random.sanitize_seed`)
and the five concrete operation bodies. -/
structure EnergyEngine (P C S : Type) where
  hasCheckpoint : Bool
  derive : P → C
  split : S → S
  sanitizeSeed : Option S → S
  sampleBody : C → S → ℕ → List Bitstring
  entropyBody : C → S → ℚ
  expectationBody : C → S → (Bitstring → List ℚ) → List ℚ
  logPartitionBody : C → S → ℚ
  callBody : C → S → Option ℕ → C ⊕ List Bitstring

/-- Embedding of `_ready_inference`: recompute the parameter-derived cache
from the current parameters. -/
def readyInference {P C S : Type} (e : EnergyEngine P C S) (s : EBMState P C S) :
    EBMState P C S :=
  { s with cache := e.derive s.params }

/-- Embedding of `_checkpoint_variables` (ebm.py lines 136-140). -/
def checkpointVariables {P C S : Type} (e : EnergyEngine P C S)
    (s : EBMState P C S) : EBMState P C S :=
  if e.hasCheckpoint then { s with checkpoint := s.params } else s

/-- Embedding of the `variables_updated` property (ebm.py lines 125-134):
true when some tracked parameter differs elementwise from its checkpoint. -/
def variablesUpdated {P C S : Type} [DecidableEq P] (e : EnergyEngine P C S)
    (s : EBMState P C S) : Bool :=
  e.hasCheckpoint && decide (s.params ≠ s.checkpoint)

/-- Embedding of `_preface_inference` (ebm.py lines 142-162): on first call
checkpoint and ready; then split the seed when in auto-seed mode; then
re-checkpoint and re-ready when the tracked parameters changed. -/
def prefaceInference {P C S : Type} [DecidableEq P] (e : EnergyEngine P C S)
    (s : EBMState P C S) : EBMState P C S :=
  let s1 := if s.first_inference then
    { readyInference e (checkpointVariables e s) with first_inference := false }
    else s
  let s2 := if s1.update_seed then { s1 with seed := e.split s1.seed } else s1
  if variablesUpdated e s2 then readyInference e (checkpointVariables e s2) else s2

/-- Embedding of the `preface_inference` decorator (ebm.py lines 30-45)
applied to an operation body: run `_preface_inference`, then the body against
the updated state. -/
def inferenceOp {P C S : Type} {α : Type} [DecidableEq P] (e : EnergyEngine P C S)
    (body : C → S → α) (s : EBMState P C S) : α × EBMState P C S :=
  (body (prefaceInference e s).cache (prefaceInference e s).seed,
    prefaceInference e s)

/-- Public `sample` operation (ebm.py lines 198-205). -/
def sampleOp {P C S : Type} [DecidableEq P] (e : EnergyEngine P C S) (n : ℕ)
    (s : EBMState P C S) : List Bitstring × EBMState P C S :=
  inferenceOp e (fun c sd => e.sampleBody c sd n) s

/-- Public `entropy` operation (ebm.py lines 177-180). -/
def entropyOp {P C S : Type} [DecidableEq P] (e : EnergyEngine P C S)
    (s : EBMState P C S) : ℚ × EBMState P C S :=
  inferenceOp e e.entropyBody s

/-- Public `expectation` operation (ebm.py lines 182-191). -/
def expectationOp {P C S : Type} [DecidableEq P] (e : EnergyEngine P C S)
    (f : Bitstring → List ℚ) (s : EBMState P C S) : List ℚ × EBMState P C S :=
  inferenceOp e (fun c sd => e.expectationBody c sd f) s

/-- Public `log_partition` operation (ebm.py lines 193-196). -/
def logPartitionOp {P C S : Type} [DecidableEq P] (e : EnergyEngine P C S)
    (s : EBMState P C S) : ℚ × EBMState P C S :=
  inferenceOp e e.logPartitionBody s

/-- Public `call` operation (ebm.py lines 172-175). -/
def callOp {P C S : Type} [DecidableEq P] (e : EnergyEngine P C S)
    (inputs : Option ℕ) (s : EBMState P C S) :
    (C ⊕ List Bitstring) × EBMState P C S :=
  inferenceOp e (fun c sd => e.callBody c sd inputs) s

/-- Embedding of `EnergyInferenceBase.__init__` (ebm.py lines 59-95): the
checkpoint starts as a copy of the parameters, the subclass constructors set
the cache from the current parameters, the seed is the sanitized initial
seed, auto-seed mode holds exactly when no initial seed was supplied, and the
first-inference flag is set. -/
def initState {P C S : Type} (e : EnergyEngine P C S) (params : P)
    (initial_seed : Option S) : EBMState P C S :=
  { params := params
    checkpoint := params
    cache := e.derive params
    seed := e.sanitizeSeed initial_seed
    update_seed := initial_seed.isNone
    first_inference := true }

/-- Embedding of the `seed` property setter (ebm.py lines 112-123). -/
def setSeed {P C S : Type} (e : EnergyEngine P C S) (s : EBMState P C S)
    (initial_seed : Option S) : EBMState P C S :=
  { s with
    update_seed := initial_seed.isNone
    seed := e.sanitizeSeed initial_seed }

/-- State invariant maintained by the engine: once the first inference has
run, the cache is the one derived from the checkpointed parameters. -/
def CacheInv {P C S : Type} (e : EnergyEngine P C S) (s : EBMState P C S) : Prop :=
  s.first_inference = false →
    (e.hasCheckpoint = true → s.cache = e.derive s.checkpoint)

/-- Call body used by the demonstration engine below. -/
def demoCallBody (c : ℤ) (i : Option ℕ) : ℤ ⊕ List Bitstring :=
  match i with
  | none => Sum.inl c
  | some n => Sum.inr (List.replicate n [false])

/-- Concrete engine instance used to witness the state-machine theorems. -/
def demoEngine : EnergyEngine (List ℤ) ℤ ℕ :=
  { hasCheckpoint := true
    derive := fun p => p.sum
    split := Nat.succ
    sanitizeSeed := fun o => o.getD 0
    sampleBody := fun _ _ n => List.replicate n [true]
    entropyBody := fun c _ => (c : ℚ)
    expectationBody := fun _ _ f => f []
    logPartitionBody := fun _ _ => 0
    callBody := fun c _ i => demoCallBody c i }

/-- Concrete auto-seed-mode state used to witness the state-machine
theorems. -/
def demoState : EBMState (List ℤ) ℤ ℕ := initState demoEngine [1, 2] none

/-- Concrete fixed-seed-mode state used to witness the state-machine
theorems. -/
def demoStateFixed : EBMState (List ℤ) ℤ ℕ :=
  initState demoEngine [1, 2] (some 7)

/-! ### Lemmas about the inference state machine -/

theorem preface_first_false {P C S : Type} [DecidableEq P] (e : EnergyEngine P C S)
    (s : EBMState P C S) : (prefaceInference e s).first_inference = false := by
  unfold prefaceInference readyInference checkpointVariables
  by_cases h1 : s.first_inference <;>
    simp only [h1, if_true, if_false, Bool.false_eq_true] <;>
    split_ifs <;> simp_all [variablesUpdated]

theorem preface_params {P C S : Type} [DecidableEq P] (e : EnergyEngine P C S)
    (s : EBMState P C S) : (prefaceInference e s).params = s.params := by
  unfold prefaceInference readyInference checkpointVariables
  by_cases h1 : s.first_inference <;>
    simp only [h1, if_true, if_false, Bool.false_eq_true] <;>
    split_ifs <;> simp_all

theorem preface_update_seed {P C S : Type} [DecidableEq P] (e : EnergyEngine P C S)
    (s : EBMState P C S) : (prefaceInference e s).update_seed = s.update_seed := by
  unfold prefaceInference readyInference checkpointVariables
  by_cases h1 : s.first_inference <;>
    simp only [h1, if_true, if_false, Bool.false_eq_true] <;>
    split_ifs <;> simp_all

theorem preface_seed_fixed {P C S : Type} [DecidableEq P] (e : EnergyEngine P C S)
    (s : EBMState P C S) (hu : s.update_seed = false) :
    (prefaceInference e s).seed = s.seed := by
  unfold prefaceInference readyInference checkpointVariables
  by_cases h1 : s.first_inference <;>
    simp only [h1, if_true, if_false, Bool.false_eq_true] <;>
    split_ifs <;> simp_all

theorem preface_seed_auto {P C S : Type} [DecidableEq P] (e : EnergyEngine P C S)
    (s : EBMState P C S) (hu : s.update_seed = true) :
    (prefaceInference e s).seed = e.split s.seed := by
  unfold prefaceInference readyInference checkpointVariables
  by_cases h1 : s.first_inference <;>
    simp only [h1, if_true, if_false, Bool.false_eq_true] <;>
    split_ifs <;> simp_all

theorem preface_refresh {P C S : Type} [DecidableEq P] (e : EnergyEngine P C S)
    (s : EBMState P C S) (hc : e.hasCheckpoint = true) (hinv : CacheInv e s) :
    (prefaceInference e s).cache = e.derive s.params
      ∧ (prefaceInference e s).checkpoint = s.params := by
  unfold prefaceInference readyInference checkpointVariables variablesUpdated
  by_cases h1 : s.first_inference <;>
    simp only [h1, if_true, if_false, Bool.false_eq_true, hc] <;>
    split_ifs with h2 h3 h4 <;>
    simp_all [CacheInv, variablesUpdated]

theorem preface_cacheInv {P C S : Type} [DecidableEq P] (e : EnergyEngine P C S)
    (s : EBMState P C S) (hinv : CacheInv e s) :
    CacheInv e (prefaceInference e s) := by
  intro _ hc
  rw [(preface_refresh e s hc hinv).1, (preface_refresh e s hc hinv).2]

theorem preface_noop {P C S : Type} [DecidableEq P] (e : EnergyEngine P C S)
    (s : EBMState P C S) (h1 : s.first_inference = false)
    (h2 : s.update_seed = false) (h3 : variablesUpdated e s = false) :
    prefaceInference e s = s := by
  simp [prefaceInference, h1, h2, h3]

theorem preface_idem {P C S : Type} [DecidableEq P] (e : EnergyEngine P C S)
    (s : EBMState P C S) (hu : s.update_seed = false) :
    prefaceInference e (prefaceInference e s) = prefaceInference e s := by
  have hcheck : e.hasCheckpoint = true →
      (prefaceInference e s).checkpoint = (prefaceInference e s).params := by
    intro hc
    unfold prefaceInference readyInference checkpointVariables variablesUpdated
    by_cases h1 : s.first_inference <;>
      simp only [h1, if_true, if_false, Bool.false_eq_true, hc] <;>
      split_ifs <;> simp_all
  refine preface_noop e _ (preface_first_false e s) ?_ ?_
  · rw [preface_update_seed, hu]
  · unfold variablesUpdated
    by_cases hc : e.hasCheckpoint = true
    · simp [hc, hcheck hc]
    · simp [Bool.not_eq_true _ ▸ hc]

theorem op_state_eq_preface {P C S : Type} {α : Type} [DecidableEq P]
    (e : EnergyEngine P C S) (body : C → S → α) :
    (fun st => (inferenceOp e body st).2) = prefaceInference e := by
  funext st
  rfl

theorem preface_iter_update_seed {P C S : Type} [DecidableEq P]
    (e : EnergyEngine P C S) (s : EBMState P C S) (k : ℕ) :
    ((prefaceInference e)^[k] s).update_seed = s.update_seed := by
  induction k with
  | zero => rfl
  | succ k ih =>
    rw [Function.iterate_succ_apply', preface_update_seed, ih]

theorem preface_iter_seed_auto {P C S : Type} [DecidableEq P]
    (e : EnergyEngine P C S) (s : EBMState P C S) (hu : s.update_seed = true)
    (k : ℕ) : ((prefaceInference e)^[k] s).seed = e.split^[k] s.seed := by
  induction k with
  | zero => rfl
  | succ k ih =>
    rw [Function.iterate_succ_apply', Function.iterate_succ_apply',
      preface_seed_auto, ih]
    rw [preface_iter_update_seed, hu]

theorem succ_iterate_add (k m : ℕ) : Nat.succ^[k] m = m + k := by
  induction k with
  | zero => rfl
  | succ k ih => rw [Function.iterate_succ_apply', ih]; omega

/-- C2: every public inference operation (sample, entropy, expectation,
log_partition, call) runs the preface step before its body; when any tracked
energy parameter differs from the checkpointed snapshot at call time, the
preface re-snapshots the parameters and re-derives the `_ready_inference`
cache before the body executes, so the body always sees the cache derived
from the current parameter values, and the engine's cache invariant is
maintained across calls. -/
theorem inference_preface_consistency {P C S : Type} [DecidableEq P]
    (e : EnergyEngine P C S) (s : EBMState P C S)
    (hc : e.hasCheckpoint = true) (hinv : CacheInv e s) :
    (∀ (α : Type) (body : C → S → α),
        (inferenceOp e body s).1
            = body (e.derive s.params) (prefaceInference e s).seed
          ∧ (inferenceOp e body s).2.cache = e.derive s.params
          ∧ (inferenceOp e body s).2.checkpoint = s.params
          ∧ (inferenceOp e body s).2.params = s.params
          ∧ CacheInv e (inferenceOp e body s).2)
      ∧ (∀ n, sampleOp e n s = inferenceOp e (fun c sd => e.sampleBody c sd n) s)
      ∧ entropyOp e s = inferenceOp e e.entropyBody s
      ∧ (∀ f, expectationOp e f s
          = inferenceOp e (fun c sd => e.expectationBody c sd f) s)
      ∧ logPartitionOp e s = inferenceOp e e.logPartitionBody s
      ∧ (∀ i, callOp e i s = inferenceOp e (fun c sd => e.callBody c sd i) s) := by
  refine ⟨fun α body => ?_, fun n => rfl, rfl, fun f => rfl, rfl, fun i => rfl⟩
  refine ⟨?_, ?_, ?_, ?_, ?_⟩
  · show body (prefaceInference e s).cache (prefaceInference e s).seed = _
    rw [(preface_refresh e s hc hinv).1]
  · exact (preface_refresh e s hc hinv).1
  · exact (preface_refresh e s hc hinv).2
  · exact preface_params e s
  · exact preface_cacheInv e s hinv

/-- Witness for the preface-consistency theorem on a concrete engine. -/
theorem inference_preface_consistency_witness :
    demoEngine.hasCheckpoint = true ∧ CacheInv demoEngine demoState ∧
      (inferenceOp demoEngine demoEngine.entropyBody demoState).2.cache
        = demoEngine.derive demoState.params :=
  ⟨rfl, fun h => absurd h (by decide),
    (((inference_preface_consistency demoEngine demoState rfl
      (fun h => absurd h (by decide))).1 ℚ demoEngine.entropyBody).2.1)⟩

/-- C8: in fixed-seed mode (a concrete seed supplied at construction or via
the seed setter, which clears the auto-update flag until the seed is reset to
None), the preface does not advance the stored seed, and repeating any
inference operation on the resulting state with no intervening parameter
change returns the same result and the same state. -/
theorem fixed_seed_repeatable {P C S : Type} [DecidableEq P]
    (e : EnergyEngine P C S) (s : EBMState P C S) (hu : s.update_seed = false) :
    (prefaceInference e s).seed = s.seed
      ∧ (∀ (p : P) (x : S), (initState e p (some x)).update_seed = false)
      ∧ (∀ (s' : EBMState P C S) (x : S), (setSeed e s' (some x)).update_seed = false)
      ∧ (∀ (α : Type) (body : C → S → α),
          (inferenceOp e body ((inferenceOp e body s).2)).1
              = (inferenceOp e body s).1
            ∧ (inferenceOp e body ((inferenceOp e body s).2)).2
              = (inferenceOp e body s).2) := by
  refine ⟨preface_seed_fixed e s hu, fun p x => rfl, fun s' x => rfl,
    fun α body => ?_⟩
  have h2 : (inferenceOp e body s).2 = prefaceInference e s := rfl
  constructor
  · show body (prefaceInference e (prefaceInference e s)).cache
        (prefaceInference e (prefaceInference e s)).seed = _
    rw [preface_idem e s hu]
    rfl
  · show prefaceInference e (prefaceInference e s) = prefaceInference e s
    exact preface_idem e s hu

/-- Witness for the fixed-seed theorem on a concrete engine. -/
theorem fixed_seed_repeatable_witness :
    demoStateFixed.update_seed = false ∧
      (inferenceOp demoEngine demoEngine.entropyBody
          ((inferenceOp demoEngine demoEngine.entropyBody demoStateFixed).2)).1
        = (inferenceOp demoEngine demoEngine.entropyBody demoStateFixed).1 :=
  ⟨by decide,
    ((fixed_seed_repeatable demoEngine demoStateFixed (by decide)).2.2.2
      ℚ demoEngine.entropyBody).1⟩

/-- C7: in auto-seed mode (constructed with no initial seed, or the seed
reset to None), the preface of every public inference operation installs a
new seed obtained by splitting the current seed before the body runs; hence
the seed used by the k-th consecutive call is the (k+1)-fold split of the
initial seed, and, provided the split orbit of the initial seed has no
repetitions, no two calls ever use the same seed. -/
theorem auto_seed_never_reused {P C S : Type} [DecidableEq P]
    (e : EnergyEngine P C S) (s : EBMState P C S) (hu : s.update_seed = true)
    (hfresh : Function.Injective fun k : ℕ => e.split^[k] s.seed) :
    (∀ s' : EBMState P C S, s'.update_seed = true →
        (prefaceInference e s').seed = e.split s'.seed)
      ∧ (∀ p : P, (initState e p none).update_seed = true)
      ∧ (∀ s' : EBMState P C S, (setSeed e s' none).update_seed = true)
      ∧ (∀ (α : Type) (body : C → S → α) (k : ℕ),
          ((fun st => (inferenceOp e body st).2)^[k + 1] s).seed
            = e.split^[k + 1] s.seed)
      ∧ (∀ (α : Type) (body : C → S → α) (j k : ℕ), j ≠ k →
          ((fun st => (inferenceOp e body st).2)^[j + 1] s).seed
            ≠ ((fun st => (inferenceOp e body st).2)^[k + 1] s).seed) := by
  have hseed : ∀ (α : Type) (body : C → S → α) (k : ℕ),
      ((fun st => (inferenceOp e body st).2)^[k + 1] s).seed
        = e.split^[k + 1] s.seed := by
    intro α body k
    rw [op_state_eq_preface e body]
    exact preface_iter_seed_auto e s hu (k + 1)
  refine ⟨fun s' hu' => preface_seed_auto e s' hu', fun p => rfl, fun s' => rfl,
    hseed, fun α body j k hjk => ?_⟩
  rw [hseed α body j, hseed α body k]
  intro h
  exact hjk (by simpa using hfresh h)

/-- Witness for the auto-seed theorem on a concrete engine whose splitter is
the successor function (an injective orbit). -/
theorem auto_seed_never_reused_witness :
    demoState.update_seed = true ∧
      ((fun st => (inferenceOp demoEngine demoEngine.entropyBody st).2)^[1]
          demoState).seed
        = demoEngine.split^[1] demoState.seed :=
  ⟨by decide,
    (auto_seed_never_reused demoEngine demoState (by decide)
      (fun a b h => by
        simpa [demoEngine, demoState, initState, succ_iterate_add] using h)).2.2.2.1
      ℚ demoEngine.entropyBody 0⟩

/-! ### Lemmas about deduplication with counts -/

theorem mem_uniques {α : Type} [DecidableEq α] {b : α} {l : List α} :
    b ∈ uniques l ↔ b ∈ l := by
  induction l with
  | nil => simp [uniques]
  | cons a t ih =>
    simp only [uniques, List.mem_cons, List.mem_filter, ih]
    by_cases hb : b = a <;> simp [hb]

theorem nodup_uniques {α : Type} [DecidableEq α] (l : List α) :
    (uniques l).Nodup := by
  induction l with
  | nil => simp [uniques]
  | cons a t ih =>
    refine List.Nodup.cons ?_ (ih.filter _)
    simp

theorem toFinset_uniques {α : Type} [DecidableEq α] (l : List α) :
    (uniques l).toFinset = l.toFinset := by
  ext b
  simp [List.mem_toFinset, mem_uniques]

theorem uniques_ne_nil {α : Type} [DecidableEq α] {l : List α} (h : l ≠ []) :
    uniques l ≠ [] := by
  cases l with
  | nil => exact absurd rfl h
  | cons a t => simp [uniques]

theorem sum_uniques_count_smul {α : Type} [DecidableEq α] {M : Type}
    [AddCommMonoid M] (l : List α) (g : α → M) :
    ((uniques l).map (fun u => l.count u • g u)).sum = (l.map g).sum := by
  rw [← List.sum_toFinset _ (nodup_uniques l), toFinset_uniques,
    Finset.sum_list_map_count]

theorem sum_uniques_count_mul {α : Type} [DecidableEq α] (l : List α)
    (g : α → ℚ) :
    ((uniques l).map (fun u => (l.count u : ℚ) * g u)).sum = (l.map g).sum := by
  rw [← sum_uniques_count_smul l g]
  congr 1
  apply List.map_congr_left
  intro u _
  rw [nsmul_eq_mul]

theorem sum_uniques_count_mul_real {α : Type} [DecidableEq α] (l : List α)
    (g : α → ℝ) :
    ((uniques l).map (fun u => (l.count u : ℝ) * g u)).sum = (l.map g).sum := by
  rw [← sum_uniques_count_smul l g]
  congr 1
  apply List.map_congr_left
  intro u _
  rw [nsmul_eq_mul]

theorem sum_counts_eq_length {α : Type} [DecidableEq α] (l : List α) :
    ((uniques l).map (fun u => l.count u)).sum = l.length := by
  have h := sum_uniques_count_smul l (fun _ => (1 : ℕ))
  simpa [smul_eq_mul] using h

theorem counts_length_eq {α : Type} [DecidableEq α] (l : List α) :
    (uniqueBitstringsWithCounts l).2.length = (uniqueBitstringsWithCounts l).1.length := by
  simp [uniqueBitstringsWithCounts]

/-! ### List summation helpers -/

theorem list_range_map_sum {M : Type} [AddCommMonoid M] (n : ℕ) (g : ℕ → M) :
    ((List.range n).map g).sum = ∑ i in Finset.range n, g i := by
  induction n with
  | zero => simp
  | succ n ih =>
    rw [List.range_succ, List.map_append, List.sum_append, Finset.sum_range_succ, ih]
    simp

theorem sum_zipWith_getD {β γ M : Type} [AddCommMonoid M] (f : β → γ → M)
    (a : List β) (b : List γ) (d1 : β) (d2 : γ) (h : a.length = b.length) :
    (List.zipWith f a b).sum
      = ∑ i in Finset.range a.length, f (a.getD i d1) (b.getD i d2) := by
  induction a generalizing b with
  | nil => simp
  | cons x a' ih =>
    cases b with
    | nil => simp at h
    | cons y b' =>
      have h' : a'.length = b'.length := by simpa using h
      rw [List.zipWith_cons_cons, List.sum_cons, List.length_cons,
        Finset.sum_range_succ']
      simp only [List.getD_cons_succ, List.getD_cons_zero]
      rw [ih b' h', add_comm]

theorem zipWith_map_same {α β γ δ : Type} (f : β → γ → δ) (p : α → β)
    (q : α → γ) (l : List α) :
    List.zipWith f (l.map p) (l.map q) = l.map (fun a => f (p a) (q a)) := by
  induction l with
  | nil => rfl
  | cons a t ih => simp [ih]

theorem stackSum_length {ls : List (List ℚ)} {n : ℕ}
    (h : ∀ r ∈ ls, r.length = n) (hne : ls ≠ []) :
    (stackSum ls).length = n := by
  induction ls with
  | nil => exact absurd rfl hne
  | cons r rest ih =>
    cases rest with
    | nil => simpa using h r (by simp)
    | cons s t =>
      show (List.zipWith (fun x y => x + y) r (stackSum (s :: t))).length = n
      rw [List.length_zipWith, h r (by simp),
        ih (fun r' hr' => h r' (List.mem_cons_of_mem _ hr')) (by simp)]
      simp

theorem stackSum_getD {ls : List (List ℚ)} {n : ℕ} (i : ℕ)
    (h : ∀ r ∈ ls, r.length = n) (hne : ls ≠ []) (hi : i < n) :
    (stackSum ls).getD i 0 = (ls.map (fun r => r.getD i 0)).sum := by
  induction ls with
  | nil => exact absurd rfl hne
  | cons r rest ih =>
    cases rest with
    | nil => simp [stackSum]
    | cons s t =>
      show (List.zipWith (fun x y => x + y) r (stackSum (s :: t))).getD i 0 = _
      have hr : r.length = n := h r (by simp)
      have hrest : ∀ r' ∈ s :: t, r'.length = n :=
        fun r' hr' => h r' (List.mem_cons_of_mem _ hr')
      have hlen : i < (List.zipWith (fun x y => x + y) r (stackSum (s :: t))).length := by
        rw [List.length_zipWith, hr, stackSum_length hrest (by simp)]
        simpa using hi
      rw [List.getD_eq_getElem _ _ hlen, List.getElem_zipWith,
        ← List.getD_eq_getElem r 0 (by omega),
        ← List.getD_eq_getElem (stackSum (s :: t)) 0
          (by rw [stackSum_length hrest (by simp)]; exact hi),
        ih hrest (by simp)]
      simp

theorem atomsOf_length (K : ℕ) (F : Bitstring → List ℚ) (bits : List Bitstring) :
    (atomsOf K F bits).length = K := by
  simp [atomsOf]

theorem atomsOf_getD (K : ℕ) (F : Bitstring → List ℚ) (bits : List Bitstring)
    {i : ℕ} (hi : i < K) :
    (atomsOf K F bits).getD i [] = bits.map (fun x => (F x).getD i 0) := by
  rw [List.getD_eq_getElem _ _ (by simpa [atomsOf] using hi)]
  simp [atomsOf]

theorem forall_mem_zipWith {α β γ : Type} {Q : γ → Prop} (f : α → β → γ)
    (a : List α) (b : List β) (hQ : ∀ x, ∀ y ∈ b, Q (f x y)) :
    ∀ w ∈ List.zipWith f a b, Q w := by
  induction a generalizing b with
  | nil => simp
  | cons x a' ih =>
    cases b with
    | nil => simp
    | cons y b' =>
      intro w hw
      rcases List.mem_cons.mp hw with h | h
      · exact h ▸ hQ x y (by simp)
      · exact ih b' (fun x' y' hy' => hQ x' y' (List.mem_cons_of_mem _ hy')) w h


theorem weightedAverage_uniques {α : Type} [DecidableEq α] (l : List α)
    (g : α → ℚ) :
    weightedAverage ((uniques l).map (fun u => l.count u)) ((uniques l).map g)
      = (l.map g).sum / (l.length : ℚ) := by
  unfold weightedAverage dotP
  rw [zipWith_map_same, sum_counts_eq_length]
  congr 1
  exact sum_uniques_count_mul l g

theorem avgRows_rows_length {counts : List ℕ} {bits : List Bitstring}
    {F : Bitstring → List ℚ} {K : ℕ} (hF : ∀ x, (F x).length = K) :
    ∀ w ∈ List.zipWith (fun (c : ℕ) (r : List ℚ) => r.map (fun v => (c : ℚ) * v))
      counts (bits.map F), w.length = K := by
  apply forall_mem_zipWith
  intro c r hr
  rcases List.mem_map.mp hr with ⟨x, _, rfl⟩
  simp [hF x]

theorem avgRows_length {counts : List ℕ} {bits : List Bitstring}
    {F : Bitstring → List ℚ} {K : ℕ} (hF : ∀ x, (F x).length = K)
    (hc : counts.length = bits.length) (hbits : bits ≠ []) :
    (avgRows counts (bits.map F)).length = K := by
  unfold avgRows
  rw [List.length_map]
  refine stackSum_length (avgRows_rows_length hF) ?_
  rw [← List.length_pos_iff_ne_nil, List.length_zipWith, hc, List.length_map]
  have := List.length_pos_of_ne_nil hbits
  omega

theorem avgRows_getD {counts : List ℕ} {bits : List Bitstring}
    {F : Bitstring → List ℚ} {K i : ℕ} (hF : ∀ x, (F x).length = K)
    (hc : counts.length = bits.length) (hbits : bits ≠ []) (hi : i < K) :
    (avgRows counts (bits.map F)).getD i 0
      = weightedAverage counts (bits.map (fun x => (F x).getD i 0)) := by
  have hzlen : (List.zipWith (fun (c : ℕ) (r : List ℚ) => r.map (fun v => (c : ℚ) * v))
      counts (bits.map F)).length = bits.length := by
    rw [List.length_zipWith, hc, List.length_map]
    omega
  have hzne : List.zipWith (fun (c : ℕ) (r : List ℚ) => r.map (fun v => (c : ℚ) * v))
      counts (bits.map F) ≠ [] := by
    rw [← List.length_pos_iff_ne_nil, hzlen]
    exact List.length_pos_of_ne_nil hbits
  have hstack : i < (stackSum (List.zipWith
      (fun (c : ℕ) (r : List ℚ) => r.map (fun v => (c : ℚ) * v))
      counts (bits.map F))).length := by
    rw [stackSum_length (avgRows_rows_length hF) hzne]
    exact hi
  unfold avgRows
  rw [List.getD_eq_getElem _ _ (by simpa using hstack), List.getElem_map,
    ← List.getD_eq_getElem _ 0 hstack,
    stackSum_getD i (avgRows_rows_length hF) hzne hi]
  unfold weightedAverage
  congr 1
  rw [List.map_zipWith, List.zipWith_map_right]
  unfold dotP
  rw [List.zipWith_map_right]
  rw [sum_zipWith_getD _ counts bits 0 [] hc, sum_zipWith_getD _ counts bits 0 [] hc]
  apply Finset.sum_congr rfl
  intro m hm
  have hmb : m < bits.length := by
    rw [← hc]
    exact Finset.mem_range.mp hm
  rw [List.getD_eq_getElem bits [] hmb]
  have hfx : i < (F bits[m]).length := by rw [hF]; exact hi
  rw [List.getD_eq_getElem _ 0 (by simpa [hfx] using hfx)]
  rw [List.getElem_map]
  rw [← List.getD_eq_getElem _ 0 hfx]

theorem atoms_avg_eq_avgRows {counts : List ℕ} {bits : List Bitstring}
    {F : Bitstring → List ℚ} {K : ℕ} (hF : ∀ x, (F x).length = K)
    (hc : counts.length = bits.length) (hbits : bits ≠ []) :
    (atomsOf K F bits).map (fun col => weightedAverage counts col)
      = avgRows counts (bits.map F) := by
  apply List.ext_getElem
  · rw [List.length_map, atomsOf_length, avgRows_length hF hc hbits]
  · intro i h1 h2
    have hi : i < K := by
      rw [List.length_map, atomsOf_length] at h1
      exact h1
    rw [List.getElem_map]
    have hia : i < (atomsOf K F bits).length := by
      rw [atomsOf_length]
      exact hi
    have ha : (atomsOf K F bits)[i] = bits.map (fun x => (F x).getD i 0) := by
      rw [← List.getD_eq_getElem _ [] hia, atomsOf_getD K F bits hi]
    rw [ha, ← List.getD_eq_getElem _ 0 h2, avgRows_getD hF hc hbits hi]

theorem combined_rows_length {upstream : List ℚ} {bits : List Bitstring}
    {F : Bitstring → List ℚ} {K : ℕ} :
    ∀ w ∈ List.zipWith (fun d col => col.map (fun v => d * v)) upstream
      (atomsOf K F bits), w.length = bits.length := by
  apply forall_mem_zipWith
  intro d col hcol
  rcases List.mem_map.mp hcol with ⟨i, _, rfl⟩
  simp

theorem stack_combined_eq {upstream : List ℚ} {bits : List Bitstring}
    {F : Bitstring → List ℚ} {K : ℕ} (hup : upstream.length = K)
    (hF : ∀ x, (F x).length = K) (hK : 0 < K) :
    stackSum (List.zipWith (fun d col => col.map (fun v => d * v)) upstream
        (atomsOf K F bits))
      = bits.map (fun x => dotR upstream (F x)) := by
  have hzlen : (List.zipWith (fun d col => col.map (fun v => d * v)) upstream
      (atomsOf K F bits)).length = K := by
    rw [List.length_zipWith, hup, atomsOf_length]
    omega
  have hzne : List.zipWith (fun d col => col.map (fun v => d * v)) upstream
      (atomsOf K F bits) ≠ [] := by
    rw [← List.length_pos_iff_ne_nil, hzlen]
    exact hK
  apply List.ext_getElem
  · rw [stackSum_length combined_rows_length hzne, List.length_map]
  · intro m h1 h2
    have hm : m < bits.length := by
      rw [List.length_map] at h2
      exact h2
    rw [← List.getD_eq_getElem _ 0 h1,
      stackSum_getD m combined_rows_length hzne hm, List.map_zipWith,
      sum_zipWith_getD _ upstream (atomsOf K F bits) 0 []
        (by rw [hup, atomsOf_length]), List.getElem_map]
    unfold dotR
    rw [sum_zipWith_getD _ upstream (F bits[m]) 0 0 (by rw [hup, hF])]
    apply Finset.sum_congr rfl
    intro j hj
    have hjK : j < K := by
      rw [← hup]
      exact Finset.mem_range.mp hj
    rw [atomsOf_getD K F bits hjK, List.map_map,
      List.getD_eq_getElem _ 0 (by simpa using hm), List.getElem_map]
    have hfx : j < (F bits[m]).length := by
      rw [hF]
      exact hjK
    simp only [Function.comp_apply]

theorem counts_sum_eq {α : Type} [DecidableEq α] (l : List α) :
    (uniqueBitstringsWithCounts l).2.sum = l.length := by
  simpa [uniqueBitstringsWithCounts] using sum_counts_eq_length l

theorem expectationForward_eq_specAverage {K : ℕ} {F : Bitstring → List ℚ}
    {samples : List Bitstring} (hne : samples ≠ [])
    (hF : ∀ x, (F x).length = K) :
    expectationForward K F samples = specAverage F samples := by
  have hrows : ∀ r ∈ samples.map F, r.length = K := by
    intro r hr
    rcases List.mem_map.mp hr with ⟨x, _, rfl⟩
    exact hF x
  have hmne : samples.map F ≠ [] := by
    simpa [List.map_eq_nil] using hne
  unfold expectationForward specAverage
  apply List.ext_getElem
  · rw [List.length_map, atomsOf_length, List.length_map,
      stackSum_length hrows hmne]
  · intro i h1 h2
    have hi : i < K := by
      rw [List.length_map, atomsOf_length] at h1
      exact h1
    rw [List.getElem_map, List.getElem_map]
    have hia : i < (atomsOf K F (uniqueBitstringsWithCounts samples).1).length := by
      rw [atomsOf_length]
      exact hi
    have ha : (atomsOf K F (uniqueBitstringsWithCounts samples).1)[i]
        = (uniqueBitstringsWithCounts samples).1.map (fun x => (F x).getD i 0) := by
      rw [← List.getD_eq_getElem _ [] hia, atomsOf_getD _ F _ hi]
    rw [ha]
    simp only [uniqueBitstringsWithCounts]
    rw [weightedAverage_uniques samples (fun x => (F x).getD i 0)]
    have hsi : i < (stackSum (samples.map F)).length := by
      rw [stackSum_length hrows hmne]
      exact hi
    rw [← List.getD_eq_getElem _ 0 hsi, stackSum_getD i hrows hmne hi,
      List.map_map]
    rfl

theorem combineSummands_congr {a b c a' b' c' : List ℚ} (h1 : a = a')
    (h2 : b = b') (h3 : c = c') :
    combineSummands a b c = combineSummands a' b' c' := by
  rw [h1, h2, h3]

/-- C1: the forward pass of `EnergyInference._expectation` deduplicates the
`m` drawn samples into (bitstrings, counts) whose counts sum to `m`,
evaluates the function on the unique bitstrings, and returns their
count-weighted average (equal to the plain average of the function over the
raw draws); and for every energy parameter the custom backward pass returns
Term1 - Term2 + Term3, where Term1 is the count-weighted average of the
per-bitstring energy gradient times the total contraction of the upstream
gradient with the averaged function values, Term2 is the count-weighted
average over unique bitstrings of the per-bitstring energy gradient times
the per-bitstring contraction of the upstream gradient with the unaveraged
function values, and Term3 is the tape gradient of the weighted average with
respect to the parameters holding the sampled bitstrings fixed. -/
theorem expectation_custom_gradient (K m : ℕ) (F : Bitstring → List ℚ)
    (jacs : List (Bitstring → ℚ)) (fjacs : List (Bitstring → List ℚ))
    (samples : List Bitstring) (upstream : List ℚ)
    (hm : samples.length = m) (hne : samples ≠ []) (hK : 0 < K)
    (hup : upstream.length = K) (hF : ∀ x, (F x).length = K)
    (hfj : ∀ fj ∈ fjacs, ∀ x, (fj x).length = K) :
    (uniqueBitstringsWithCounts samples).2.sum = m
      ∧ expectationForward K F samples = specAverage F samples
      ∧ expectationGradFn K F jacs fjacs samples upstream
          = specGradient F jacs fjacs samples upstream := by
  have hbits : (uniqueBitstringsWithCounts samples).1 ≠ [] := by
    simpa [uniqueBitstringsWithCounts] using uniques_ne_nil hne
  have hc : (uniqueBitstringsWithCounts samples).2.length
      = (uniqueBitstringsWithCounts samples).1.length := counts_length_eq samples
  refine ⟨by rw [counts_sum_eq, hm], expectationForward_eq_specAverage hne hF, ?_⟩
  have e1 : expectationGradFn K F jacs fjacs samples upstream
      = combineSummands
        (((jacs.map (fun g => (uniqueBitstringsWithCounts samples).1.map g)).map
            (fun v => weightedAverage (uniqueBitstringsWithCounts samples).2 v)).map
          (fun x => x * (List.zipWith (fun x y => x * y) upstream
            ((atomsOf K F (uniqueBitstringsWithCounts samples).1).map
              (fun col => weightedAverage (uniqueBitstringsWithCounts samples).2 col))).sum))
        (((jacs.map (fun g => (uniqueBitstringsWithCounts samples).1.map g)).map
            (fun gvec => List.zipWith (fun x y => x * y) gvec
              (stackSum (List.zipWith (fun d col => col.map (fun v => d * v)) upstream
                (atomsOf K F (uniqueBitstringsWithCounts samples).1))))).map
          (fun v => weightedAverage (uniqueBitstringsWithCounts samples).2 v))
        (fjacs.map (fun fj => dotR upstream
          ((atomsOf K fj (uniqueBitstringsWithCounts samples).1).map
            (fun col => weightedAverage (uniqueBitstringsWithCounts samples).2 col)))) := rfl
  have e2 : specGradient F jacs fjacs samples upstream
      = combineSummands
        (jacs.map (fun g => specTermOne (uniqueBitstringsWithCounts samples).2
          (uniqueBitstringsWithCounts samples).1 upstream F g))
        (jacs.map (fun g => specTermTwo (uniqueBitstringsWithCounts samples).2
          (uniqueBitstringsWithCounts samples).1 upstream F g))
        (fjacs.map (fun fj => specTermThree (uniqueBitstringsWithCounts samples).2
          (uniqueBitstringsWithCounts samples).1 upstream fj)) := rfl
  rw [e1, e2]
  apply combineSummands_congr
  · rw [List.map_map, List.map_map]
    apply List.map_congr_left
    intro g _
    simp only [Function.comp_apply]
    unfold specTermOne
    congr 1
    rw [atoms_avg_eq_avgRows hF hc hbits]
    rfl
  · rw [List.map_map, List.map_map]
    apply List.map_congr_left
    intro g _
    simp only [Function.comp_apply]
    unfold specTermTwo
    rw [stack_combined_eq hup hF hK,
      zipWith_map_same (fun x y => x * y) g (fun x => dotR upstream (F x))]
  · apply List.map_congr_left
    intro fj hfjmem
    unfold specTermThree
    rw [atoms_avg_eq_avgRows (hfj fj hfjmem) hc hbits]

/-- Witness for the expectation custom-gradient theorem at a concrete
instance. -/
theorem expectation_custom_gradient_witness :
    ([[true]] : List Bitstring).length = 1 ∧ ([[true]] : List Bitstring) ≠ []
      ∧ 0 < 1 ∧ ([(1 : ℚ)] : List ℚ).length = 1
      ∧ expectationGradFn 1 (fun _ => [1]) [fun _ => (1 : ℚ)]
          [fun _ => [0]] [[true]] [1]
        = specGradient (fun _ => [1]) [fun _ => (1 : ℚ)]
          [fun _ => [0]] [[true]] [1] :=
  ⟨rfl, by decide, by decide, rfl,
    (expectation_custom_gradient 1 1 (fun _ => [1]) [fun _ => (1 : ℚ)]
      [fun _ => [0]] [[true]] [1] rfl (by decide) (by decide) rfl
      (fun x => rfl)
      (fun fj hfj x => by rw [List.mem_singleton.mp hfj]; rfl)).2.2⟩

theorem expectationForward_energyGrad (jacs : List (Bitstring → ℚ))
    (samples : List Bitstring) :
    expectationForward jacs.length (energyGradFunction jacs) samples
      = jacs.map (fun g => weightedAverage (uniqueBitstringsWithCounts samples).2
          ((uniqueBitstringsWithCounts samples).1.map g)) := by
  show (atomsOf jacs.length (energyGradFunction jacs)
      (uniqueBitstringsWithCounts samples).1).map
    (fun col => weightedAverage (uniqueBitstringsWithCounts samples).2 col) = _
  have hatoms : atomsOf jacs.length (energyGradFunction jacs)
        (uniqueBitstringsWithCounts samples).1
      = jacs.map (fun g => (uniqueBitstringsWithCounts samples).1.map g) := by
    apply List.ext_getElem
    · simp [atomsOf]
    · intro i h1 h2
      have hi : i < jacs.length := by
        simpa [atomsOf] using h1
      unfold atomsOf
      rw [List.getElem_map, List.getElem_map, List.getElem_range]
      apply List.map_congr_left
      intro x _
      unfold energyGradFunction
      rw [List.getD_eq_getElem _ _ (by simpa using hi), List.getElem_map]
  rw [hatoms, List.map_map]
  rfl

/-- C3: the forward pass of `EnergyInference._log_partition` returns the
subclass-supplied `_log_partition_forward_pass` value, and the backward pass
returns, for each energy parameter, the upstream gradient times the negation
of the expected energy gradient, the expectation being computed by invoking
the engine's own expectation operation on the energy-jacobian function (whose
value is the count-weighted average of the per-bitstring energy derivative
over the deduplicated samples). -/
theorem log_partition_custom_gradient (jacs : List (Bitstring → ℚ))
    (samples : List Bitstring) (upstream : ℚ) :
    (∀ z : ℝ, logPartitionValue z = z)
      ∧ logPartitionGradFn jacs samples upstream
          = jacs.map (fun g => upstream * -(weightedAverage
              (uniqueBitstringsWithCounts samples).2
              ((uniqueBitstringsWithCounts samples).1.map g))) := by
  refine ⟨fun z => rfl, ?_⟩
  unfold logPartitionGradFn
  rw [expectationForward_energyGrad, List.map_map]
  apply List.map_congr_left
  intro g _
  simp only [Function.comp_apply]
  ring

/-! ### Log partition equivalence for Bernoulli energies -/

theorem spinOf_false : spinOf false = 1 := by
  norm_num [spinOf]

theorem spinOf_true : spinOf true = -1 := by
  norm_num [spinOf]

theorem allBitstrings_length (n : ℕ) : (allBitstrings n).length = 2 ^ n := by
  induction n with
  | zero => rfl
  | succ n ih =>
    show ((allBitstrings n).map _ ++ (allBitstrings n).map _).length = 2 ^ (n + 1)
    rw [List.length_append, List.length_map, List.length_map, ih]
    ring

theorem allBitstrings_sum_exp_pos (n : ℕ) (h : List Bool → ℝ) :
    0 < ((allBitstrings n).map (fun x => Real.exp (h x))).sum := by
  induction n generalizing h with
  | zero =>
    simp only [allBitstrings, List.map_cons, List.map_nil, List.sum_cons,
      List.sum_nil, add_zero]
    exact Real.exp_pos _
  | succ n ih =>
    show 0 < (((allBitstrings n).map (fun x => false :: x)
        ++ (allBitstrings n).map (fun x => true :: x)).map
          (fun x => Real.exp (h x))).sum
    rw [List.map_append, List.sum_append, List.map_map, List.map_map]
    exact add_pos (ih (fun x => h (false :: x))) (ih (fun x => h (true :: x)))

theorem bernoulliEnergy_cons (l : ℝ) (ls : List ℝ) (b : Bool) (x : List Bool) :
    bernoulliEnergy (l :: ls) (b :: x) = (l / 2) * spinOf b + bernoulliEnergy ls x := by
  simp [bernoulliEnergy]

/-- C4: for every Bernoulli (independent-spin) energy function,
`BernoulliEnergyInference`'s closed-form log partition (the sum over spins of
`log(exp(theta) + exp(-theta))` with theta half the per-bit logit) equals
`AnalyticEnergyInference`'s log partition (the log-sum-exp of the negated
energies of all `2 ^ num_bits` bitstrings) for the same energy; the
enumeration really has `2 ^ num_bits` rows. -/
theorem bernoulli_log_partition_eq_analytic (logits : List ℝ) :
    bernoulliLogPartition logits
        = analyticLogPartition (bernoulliEnergy logits) logits.length
      ∧ (allBitstrings logits.length).length = 2 ^ logits.length := by
  refine ⟨?_, allBitstrings_length _⟩
  induction logits with
  | nil =>
    simp [bernoulliLogPartition, analyticLogPartition, allBitstrings,
      bernoulliEnergy]
  | cons l ls ih =>
    show Real.log (Real.exp (l / 2) + Real.exp (-(l / 2)))
        + bernoulliLogPartition ls = _
    unfold analyticLogPartition
    show _ = Real.log ((((allBitstrings ls.length).map (fun x => false :: x)
        ++ (allBitstrings ls.length).map (fun x => true :: x)).map
          (fun x => Real.exp (-bernoulliEnergy (l :: ls) x))).sum)
    rw [List.map_append, List.sum_append, List.map_map, List.map_map]
    have hfalse : ((allBitstrings ls.length).map
          ((fun x => Real.exp (-bernoulliEnergy (l :: ls) x)) ∘ (fun x => false :: x))).sum
        = Real.exp (-(l / 2)) * ((allBitstrings ls.length).map
          (fun x => Real.exp (-bernoulliEnergy ls x))).sum := by
      rw [← List.sum_map_mul_left]
      apply congrArg
      apply List.map_congr_left
      intro x _
      simp only [Function.comp_apply, bernoulliEnergy_cons, spinOf_false,
        mul_one, neg_add, Real.exp_add]
    have htrue : ((allBitstrings ls.length).map
          ((fun x => Real.exp (-bernoulliEnergy (l :: ls) x)) ∘ (fun x => true :: x))).sum
        = Real.exp (l / 2) * ((allBitstrings ls.length).map
          (fun x => Real.exp (-bernoulliEnergy ls x))).sum := by
      rw [← List.sum_map_mul_left]
      apply congrArg
      apply List.map_congr_left
      intro x _
      simp only [Function.comp_apply, bernoulliEnergy_cons, spinOf_true,
        mul_neg_one, neg_add, Real.exp_add, neg_neg]
    rw [hfalse, htrue, ← add_mul]
    have hA : (0 : ℝ) < Real.exp (-(l / 2)) + Real.exp (l / 2) :=
      add_pos (Real.exp_pos _) (Real.exp_pos _)
    have hS : (0 : ℝ) < ((allBitstrings ls.length).map
        (fun x => Real.exp (-bernoulliEnergy ls x))).sum :=
      allBitstrings_sum_exp_pos ls.length (fun x => -bernoulliEnergy ls x)
    rw [Real.log_mul (ne_of_gt hA) (ne_of_gt hS)]
    rw [ih]
    unfold analyticLogPartition
    rw [add_comm (Real.exp (-(l / 2)))]

/-! ### Mixing weight of the relaxed categorical -/

theorem categoricalWeight_eq (n u : ℕ) :
    categoricalWeight n u
      = Real.log ((u : ℝ) + 1) / Real.log ((2 : ℝ) ^ n + 1) := by
  unfold categoricalWeight
  rw [Real.exp_nat_mul, Real.exp_log two_pos, Real.exp_zero]

theorem categoricalWeight_denom_pos (n : ℕ) :
    0 < Real.log ((2 : ℝ) ^ n + 1) := by
  apply Real.log_pos
  have h : (0 : ℝ) < 2 ^ n := by positivity
  linarith

/-- C5 counterexample: at `num_bits = 1` and `num_unique = 3` the mixing
weight is `log 4 / log 3 > 1`, so it does not lie in `[0, 1]` for every
`num_unique ≥ 0`. -/
theorem categoricalWeight_exceeds_one :
    1 < categoricalWeight 1 3 := by
  rw [categoricalWeight_eq]
  norm_num
  rw [one_lt_div (Real.log_pos (by norm_num))]
  exact Real.log_lt_log (by norm_num) (by norm_num)

/-- C5 (amended): for `num_bits ≥ 1` the mixing weight equals
`log(num_unique + 1) / log(2 ^ num_bits + 1)` (both logarithms in the same
base), is nonnegative, equals 0 when `num_unique = 0`, is strictly increasing
in `num_unique`, and is at most 1 whenever `num_unique ≤ 2 ^ num_bits` (the
only values that can arise, since `num_unique` counts distinct bitstrings of
`num_bits` bits). -/
theorem categoricalWeight_properties (n u : ℕ) (hn : 1 ≤ n) :
    categoricalWeight n u
        = Real.log ((u : ℝ) + 1) / Real.log ((2 : ℝ) ^ n + 1)
      ∧ 0 ≤ categoricalWeight n u
      ∧ categoricalWeight n 0 = 0
      ∧ (∀ u₁ u₂ : ℕ, u₁ < u₂ → categoricalWeight n u₁ < categoricalWeight n u₂)
      ∧ (u ≤ 2 ^ n → categoricalWeight n u ≤ 1) := by
  have hD := categoricalWeight_denom_pos n
  refine ⟨categoricalWeight_eq n u, ?_, ?_, ?_, ?_⟩
  · rw [categoricalWeight_eq]
    apply div_nonneg _ hD.le
    apply Real.log_nonneg
    have : (0 : ℝ) ≤ (u : ℝ) := Nat.cast_nonneg u
    linarith
  · rw [categoricalWeight_eq]
    norm_num
  · intro u₁ u₂ hu
    rw [categoricalWeight_eq, categoricalWeight_eq]
    apply (div_lt_div_right hD).mpr
    apply Real.log_lt_log
    · have : (0 : ℝ) ≤ (u₁ : ℝ) := Nat.cast_nonneg u₁
      linarith
    · have : (u₁ : ℝ) < (u₂ : ℝ) := by exact_mod_cast hu
      linarith
  · intro hu
    rw [categoricalWeight_eq]
    rw [div_le_one hD]
    apply Real.log_le_log (by positivity)
    have h1 : (u : ℝ) ≤ ((2 ^ n : ℕ) : ℝ) := by exact_mod_cast hu
    have h2 : ((2 ^ n : ℕ) : ℝ) = (2 : ℝ) ^ n := by push_cast; ring
    linarith

/-- Witness for the amended mixing-weight theorem. -/
theorem categoricalWeight_properties_witness :
    1 ≤ 1 ∧ categoricalWeight 1 0 = 0 :=
  ⟨by decide, (categoricalWeight_properties 1 0 (by decide)).2.2.1⟩

/-! ### Relaxed categorical probabilities -/

theorem mem_allBitstrings {x : List Bool} {n : ℕ} :
    x ∈ allBitstrings n ↔ x.length = n := by
  induction n generalizing x with
  | zero =>
    simp [allBitstrings, List.length_eq_zero]
  | succ n ih =>
    show x ∈ (allBitstrings n).map (fun y => false :: y)
        ++ (allBitstrings n).map (fun y => true :: y) ↔ _
    rw [List.mem_append, List.mem_map, List.mem_map]
    constructor
    · rintro (⟨y, hy, rfl⟩ | ⟨y, hy, rfl⟩) <;> simp [ih.mp hy]
    · intro hx
      cases x with
      | nil => simp at hx
      | cons b y =>
        have hy : y.length = n := by simpa using hx
        cases b
        · exact Or.inl ⟨y, ih.mpr hy, rfl⟩
        · exact Or.inr ⟨y, ih.mpr hy, rfl⟩

theorem nodup_allBitstrings (n : ℕ) : (allBitstrings n).Nodup := by
  induction n with
  | zero => simp [allBitstrings]
  | succ n ih =>
    show ((allBitstrings n).map (fun y => false :: y)
        ++ (allBitstrings n).map (fun y => true :: y)).Nodup
    refine List.Nodup.append ?_ ?_ ?_
    · exact ih.map (fun a b hab => by simpa using hab)
    · exact ih.map (fun a b hab => by simpa using hab)
    · intro x hx hx'
      rcases List.mem_map.mp hx with ⟨y, _, rfl⟩
      rcases List.mem_map.mp hx' with ⟨z, _, hz⟩
      simp at hz

theorem sum_map_add_split {α : Type} (l : List α) (f g : α → ℝ) :
    (l.map (fun b => f b + g b)).sum = (l.map f).sum + (l.map g).sum := by
  induction l with
  | nil => simp
  | cons a t ih => simp [ih]; ring

theorem sum_indicator_sublist {α : Type} [DecidableEq α] (L us : List α)
    (hL : L.Nodup) (hus : us.Nodup) (hsub : ∀ u ∈ us, u ∈ L) (g : α → ℝ) :
    (L.map (fun b => if b ∈ us then g b else 0)).sum = (us.map g).sum := by
  rw [← List.sum_toFinset _ hL, ← List.sum_toFinset _ hus]
  have h1 : ∀ b ∈ L.toFinset, (if b ∈ us then g b else 0)
      = (if b ∈ us.toFinset then g b else 0) := by
    intro b _
    simp [List.mem_toFinset]
  rw [Finset.sum_congr rfl h1, Finset.sum_ite_mem]
  congr 1
  rw [Finset.inter_eq_right]
  intro u hu
  rw [List.mem_toFinset] at hu ⊢
  exact hsub u hu

theorem firstMatchIndex_of_not_mem {us : List Bitstring} {b : Bitstring}
    (h : b ∉ us) : firstMatchIndex us b = us.length := by
  induction us with
  | nil => rfl
  | cons u t ih =>
    unfold firstMatchIndex
    rw [List.findIdx_cons]
    have hub : ¬(u = b) := fun hub => h (hub ▸ List.mem_cons_self u t)
    simp only [hub, decide_False, cond_false]
    have ht : b ∉ t := fun hbt => h (List.mem_cons_of_mem u hbt)
    rw [show List.findIdx (fun u => decide (u = b)) t = firstMatchIndex t b from rfl,
      ih ht, List.length_cons]

theorem firstMatchIndex_lt_length {us : List Bitstring} {b : Bitstring}
    (h : b ∈ us) : firstMatchIndex us b < us.length := by
  induction us with
  | nil => simp at h
  | cons u t ih =>
    unfold firstMatchIndex
    rw [List.findIdx_cons]
    by_cases hub : u = b
    · simp [hub]
    · simp only [hub, decide_False, cond_false]
      have hbt : b ∈ t := by
        rcases List.mem_cons.mp h with h' | h'
        · exact absurd h'.symm hub
        · exact h'
      have hrec := ih hbt
      unfold firstMatchIndex at hrec
      simp only [List.length_cons]
      omega

theorem getElem_firstMatchIndex {us : List Bitstring} {b : Bitstring}
    (h : b ∈ us) (hlt : firstMatchIndex us b < us.length) :
    us[firstMatchIndex us b] = b := by
  induction us with
  | nil => simp at h
  | cons u t ih =>
    by_cases hub : u = b
    · have h0 : firstMatchIndex (u :: t) b = 0 := by
        unfold firstMatchIndex
        rw [List.findIdx_cons]
        simp [hub]
      simp only [h0, List.getElem_cons_zero]
      exact hub
    · have hbt : b ∈ t := by
        rcases List.mem_cons.mp h with h' | h'
        · exact absurd h'.symm hub
        · exact h'
      have hstep : firstMatchIndex (u :: t) b = firstMatchIndex t b + 1 := by
        unfold firstMatchIndex
        rw [List.findIdx_cons]
        simp [hub]
      rw [hstep] at hlt
      have hlt' : firstMatchIndex t b < t.length := by
        simp only [List.length_cons] at hlt
        omega
      simp only [hstep, List.getElem_cons_succ]
      exact ih hbt hlt'


theorem relaxed_probs_eq (cs inputs : List Bitstring) :
    relaxedCategoricalProbabilities cs inputs
      = inputs.map (fun b =>
          (if b ∈ uniques cs
            then categoricalWeight (numBitsOf cs) (uniques cs).length
              * ((countOf cs b : ℝ) / (cs.length : ℝ))
            else 0)
          + (1 - categoricalWeight (numBitsOf cs) (uniques cs).length)
            * uniformProb (numBitsOf cs)) := by
  have hproj1 : (uniqueBitstringsWithCounts cs).1 = uniques cs := rfl
  have hproj2 : (uniqueBitstringsWithCounts cs).2 = (uniques cs).map (countOf cs) := rfl
  have hsum0 : ((uniques cs).map (countOf cs)).sum = cs.length :=
    sum_counts_eq_length cs
  have hsum : ((((uniques cs).map (countOf cs)).sum : ℕ) : ℝ) = (cs.length : ℝ) := by
    exact_mod_cast hsum0
  simp only [relaxedCategoricalProbabilities]
  rw [hproj1, hproj2]
  apply List.map_congr_left
  intro b _
  have hcat_len : ((((uniques cs).map (countOf cs)).map
      (fun (c : ℕ) => (c : ℝ) / ((((uniques cs).map (countOf cs)).sum : ℕ) : ℝ))).map
        (fun p => categoricalWeight (numBitsOf cs) (uniques cs).length * p)).length
      = (uniques cs).length := by
    rw [List.length_map, List.length_map, List.length_map]
  by_cases hmem : b ∈ uniques cs
  · have hi : firstMatchIndex (uniques cs) b < (uniques cs).length :=
      firstMatchIndex_lt_length hmem
    have hip : firstMatchIndex (uniques cs) b < (List.zipWith (fun x y => x + y)
        ((((uniques cs).map (countOf cs)).map
            (fun (c : ℕ) => (c : ℝ) / ((((uniques cs).map (countOf cs)).sum : ℕ) : ℝ))).map
          (fun p => categoricalWeight (numBitsOf cs) (uniques cs).length * p) ++ [0])
        (List.replicate ((uniques cs).length + 1)
          ((1 - categoricalWeight (numBitsOf cs) (uniques cs).length)
            * uniformProb (numBitsOf cs)))).length := by
      rw [List.length_zipWith, List.length_append, hcat_len, List.length_replicate]
      simp only [List.length_singleton]
      omega
    have hileft : firstMatchIndex (uniques cs) b
        < ((((uniques cs).map (countOf cs)).map
            (fun (c : ℕ) => (c : ℝ) / ((((uniques cs).map (countOf cs)).sum : ℕ) : ℝ))).map
          (fun p => categoricalWeight (numBitsOf cs) (uniques cs).length * p)).length := by
      rw [hcat_len]
      exact hi
    rw [List.getD_eq_getElem _ 0 hip, List.getElem_zipWith,
      List.getElem_append_left hileft, List.getElem_map, List.getElem_map,
      List.getElem_map, List.getElem_replicate, if_pos hmem,
      getElem_firstMatchIndex hmem hi, hsum]
  · have hieq : firstMatchIndex (uniques cs) b = (uniques cs).length :=
      firstMatchIndex_of_not_mem hmem
    have hip : firstMatchIndex (uniques cs) b < (List.zipWith (fun x y => x + y)
        ((((uniques cs).map (countOf cs)).map
            (fun (c : ℕ) => (c : ℝ) / ((((uniques cs).map (countOf cs)).sum : ℕ) : ℝ))).map
          (fun p => categoricalWeight (numBitsOf cs) (uniques cs).length * p) ++ [0])
        (List.replicate ((uniques cs).length + 1)
          ((1 - categoricalWeight (numBitsOf cs) (uniques cs).length)
            * uniformProb (numBitsOf cs)))).length := by
      rw [List.length_zipWith, List.length_append, hcat_len, List.length_replicate]
      simp only [List.length_singleton]
      omega
    have hiright : ((((uniques cs).map (countOf cs)).map
        (fun (c : ℕ) => (c : ℝ) / ((((uniques cs).map (countOf cs)).sum : ℕ) : ℝ))).map
          (fun p => categoricalWeight (numBitsOf cs) (uniques cs).length * p)).length
        ≤ firstMatchIndex (uniques cs) b := by
      rw [hcat_len, hieq]
    rw [List.getD_eq_getElem _ 0 hip, List.getElem_zipWith,
      List.getElem_append_right hiright, List.getElem_replicate, if_neg hmem]
    have hz : firstMatchIndex (uniques cs) b
        - ((((uniques cs).map (countOf cs)).map
          (fun (c : ℕ) => (c : ℝ) / ((((uniques cs).map (countOf cs)).sum : ℕ) : ℝ))).map
            (fun p => categoricalWeight (numBitsOf cs) (uniques cs).length * p)).length = 0 := by
      rw [hcat_len, hieq]
      omega
    simp [hz]

/-- C6: for a non-empty sample batch, each query bitstring that does not
occur among the unique observed bitstrings receives exactly the
uniform-component contribution `(1 - w) * 2 ^ (-num_bits)` (with zero mass
from the empirical categorical component), while a query that does occur
receives the mixing weight times its empirical frequency plus the same
uniform contribution. -/
theorem relaxed_probabilities_pointwise (cs inputs : List Bitstring)
    (hne : cs ≠ []) :
    relaxedCategoricalProbabilities cs inputs
      = inputs.map (fun b =>
          (if b ∈ uniques cs
            then categoricalWeight (numBitsOf cs) (uniques cs).length
              * ((countOf cs b : ℝ) / (cs.length : ℝ))
            else 0)
          + (1 - categoricalWeight (numBitsOf cs) (uniques cs).length)
            * uniformProb (numBitsOf cs)) :=
  relaxed_probs_eq cs inputs

/-- Witness for the pointwise relaxed-probabilities theorem. -/
theorem relaxed_probabilities_pointwise_witness :
    ([[true], [true], [false]] : List Bitstring) ≠ [] ∧
      relaxedCategoricalProbabilities [[true], [true], [false]] [[false], [true]]
        = ([[false], [true]] : List Bitstring).map (fun b =>
            (if b ∈ uniques [[true], [true], [false]]
              then categoricalWeight (numBitsOf [[true], [true], [false]])
                  (uniques [[true], [true], [false]]).length
                * ((countOf [[true], [true], [false]] b : ℝ) / ((3 : ℕ) : ℝ))
              else 0)
            + (1 - categoricalWeight (numBitsOf [[true], [true], [false]])
                (uniques [[true], [true], [false]]).length)
              * uniformProb (numBitsOf [[true], [true], [false]])) :=
  ⟨by decide,
    relaxed_probabilities_pointwise [[true], [true], [false]] [[false], [true]]
      (by decide)⟩

/-- C9: for a non-empty sample batch of `n`-bit rows, the relaxed categorical
probabilities summed over all `2 ^ n` distinct bitstrings equal exactly 1:
the mixture of the empirical categorical (empirical frequencies summing to 1,
scaled by the mixing weight) and the uniform background is a normalized
probability distribution. -/
theorem relaxed_probabilities_normalized (cs : List Bitstring) (n : ℕ)
    (hne : cs ≠ []) (hrow : ∀ r ∈ cs, r.length = n) :
    (relaxedCategoricalProbabilities cs (allBitstrings n)).sum = 1 := by
  have hnb : numBitsOf cs = n := by
    cases cs with
    | nil => exact absurd rfl hne
    | cons r t => exact hrow r (List.mem_cons_self r t)
  have hlen_pos : 0 < cs.length := List.length_pos_of_ne_nil hne
  have hNne : ((cs.length : ℕ) : ℝ) ≠ 0 := by
    exact_mod_cast Nat.pos_iff_ne_zero.mp hlen_pos
  rw [relaxed_probs_eq, hnb, sum_map_add_split]
  have hA : ((allBitstrings n).map (fun b =>
      if b ∈ uniques cs
        then categoricalWeight n (uniques cs).length
          * ((countOf cs b : ℝ) / (cs.length : ℝ))
        else 0)).sum
      = categoricalWeight n (uniques cs).length := by
    have hfac : ∀ b, (if b ∈ uniques cs
        then categoricalWeight n (uniques cs).length
          * ((countOf cs b : ℝ) / (cs.length : ℝ))
        else 0)
        = categoricalWeight n (uniques cs).length
          * (if b ∈ uniques cs then (countOf cs b : ℝ) / (cs.length : ℝ) else 0) := by
      intro b
      by_cases hb : b ∈ uniques cs <;> simp [hb]
    rw [List.map_congr_left (fun b _ => hfac b), List.sum_map_mul_left]
    have hsub : ∀ u ∈ uniques cs, u ∈ allBitstrings n := by
      intro u hu
      rw [mem_allBitstrings]
      exact hrow u (mem_uniques.mp hu)
    have hind' := sum_indicator_sublist (allBitstrings n) (uniques cs)
      (nodup_allBitstrings n) (nodup_uniques cs) hsub
      (fun u => (countOf cs u : ℝ) / (cs.length : ℝ))
    have hind : ((allBitstrings n).map (fun b =>
        if b ∈ uniques cs then (countOf cs b : ℝ) / (cs.length : ℝ) else 0)).sum
        = ((uniques cs).map (fun u => (countOf cs u : ℝ) / (cs.length : ℝ))).sum := by
      refine Eq.trans ?_ hind'
      congr 1
      apply List.map_congr_left
      intro b _
      by_cases hb : b ∈ uniques cs <;> simp [hb]
    rw [hind]
    have hdiv : ((uniques cs).map (fun u => (countOf cs u : ℝ) / (cs.length : ℝ))).sum
        = ((uniques cs).map (fun u => (countOf cs u : ℝ))).sum / (cs.length : ℝ) := by
      induction uniques cs with
      | nil => simp
      | cons a t ih =>
        simp only [List.map_cons, List.sum_cons, ih]
        ring
    rw [hdiv]
    have hcast : ((uniques cs).map (fun u => (countOf cs u : ℝ))).sum
        = ((cs.length : ℕ) : ℝ) := by
      have h0 : ((uniques cs).map (countOf cs)).sum = cs.length :=
        sum_counts_eq_length cs
      have h1 : ((((uniques cs).map (countOf cs)).sum : ℕ) : ℝ)
          = ((cs.length : ℕ) : ℝ) := by
        exact_mod_cast h0
      rw [Nat.cast_list_sum, List.map_map] at h1
      exact h1
    rw [hcast, div_self hNne, mul_one]
  have hB : ((allBitstrings n).map (fun _ =>
      (1 - categoricalWeight n (uniques cs).length) * uniformProb n)).sum
      = 1 - categoricalWeight n (uniques cs).length := by
    rw [List.map_const', List.sum_replicate, allBitstrings_length, nsmul_eq_mul]
    unfold uniformProb
    have h2 : (((2 : ℕ) ^ n : ℕ) : ℝ) = (2 : ℝ) ^ n := by
      push_cast
      ring
    rw [h2]
    have hpow : ((2 : ℝ) ^ n) ≠ 0 := by positivity
    field_simp
  rw [hA, hB]
  ring

/-- Witness for the normalization theorem. -/
theorem relaxed_probabilities_normalized_witness :
    ([[true]] : List Bitstring) ≠ []
      ∧ (∀ r ∈ ([[true]] : List Bitstring), r.length = 1)
      ∧ (relaxedCategoricalProbabilities [[true]] (allBitstrings 1)).sum = 1 :=
  ⟨by decide, by decide,
    relaxed_probabilities_normalized [[true]] 1 (by decide) (by decide)⟩

/-! ### Relaxed categorical resampling -/

theorem zip_self_map {α β : Type} (l : List α) (h : α → β) :
    List.zip l (l.map h) = l.map (fun a => (a, h a)) := by
  induction l with
  | nil => rfl
  | cons a t ih => simp [List.zip_cons_cons, ih]

theorem fold_resample_eq (ps : List (Bitstring × ℕ)) (acc : ℕ × ℕ) :
    ps.foldl (fun acc p =>
        let acc1 := if p.1.head? = some false then (acc.1 + p.2, acc.2) else acc
        if p.1.head? = some true then (acc1.1, acc1.2 + p.2) else acc1) acc
      = (acc.1 + (ps.map (fun p => if p.1.head? = some false then p.2 else 0)).sum,
         acc.2 + (ps.map (fun p => if p.1.head? = some true then p.2 else 0)).sum) := by
  induction ps generalizing acc with
  | nil => simp
  | cons p t ih =>
    rw [List.foldl_cons, ih]
    rcases p with ⟨row, c⟩
    cases hrow : row.head? with
    | none => simp [hrow]
    | some b =>
      cases b <;> simp [hrow] <;> omega

theorem count_false_add_count_true (l : List Bool) :
    l.count false + l.count true = l.length := by
  induction l with
  | nil => rfl
  | cons b t ih =>
    cases b <;> simp [List.count_cons] <;> omega

theorem sum_bool_indicator_eq_count (l : List Bool) (v : Bool) :
    (l.map (fun b => if b = v then 1 else 0)).sum = l.count v := by
  induction l with
  | nil => rfl
  | cons b t ih =>
    by_cases hb : b = v <;> simp [List.count_cons, hb, ih] <;> omega

theorem sum_uniques_countOf_smul {α : Type} [DecidableEq α] {M : Type}
    [AddCommMonoid M] (l : List α) (g : α → M) :
    ((uniques l).map (fun u => countOf l u • g u)).sum = (l.map g).sum :=
  sum_uniques_count_smul l g

theorem resampleChoicesOf_eq (flips : List Bool) :
    resampleChoicesOf flips = (flips.count false, flips.count true) := by
  unfold resampleChoicesOf
  simp only [uniqueBitstringsWithCounts]
  rw [zip_self_map, fold_resample_eq, List.map_map, List.map_map]
  have hside : ∀ v : Bool,
      ((uniques (flips.map (fun b => [b]))).map
        ((fun p : Bitstring × ℕ => if p.1.head? = some v then p.2 else 0)
          ∘ (fun u => (u, countOf (flips.map (fun b => [b])) u)))).sum
      = flips.count v := by
    intro v
    have h1 : ∀ u ∈ uniques (flips.map (fun b => [b])),
        ((fun p : Bitstring × ℕ => if p.1.head? = some v then p.2 else 0)
          ∘ (fun u => (u, countOf (flips.map (fun b => [b])) u))) u
        = countOf (flips.map (fun b => [b])) u
            • (if u.head? = some v then 1 else 0) := by
      intro u _
      simp only [Function.comp_apply, smul_eq_mul]
      by_cases hu : u.head? = some v <;> simp [hu]
    rw [List.map_congr_left h1, sum_uniques_countOf_smul, List.map_map]
    have h2 : ((fun u : Bitstring => if u.head? = some v then 1 else 0)
        ∘ (fun b : Bool => [b])) = (fun b : Bool => if b = v then 1 else 0) := by
      funext b
      simp only [Function.comp_apply, List.head?_cons, Option.some_inj]
    rw [h2, sum_bool_indicator_eq_count]
  rw [Prod.mk.injEq]
  refine ⟨?_, ?_⟩
  · rw [zero_add]
    exact hside false
  · rw [zero_add]
    exact hside true

/-- C10: `relaxed_categorical_samples` draws one Bernoulli coin per requested
resample; the per-branch counts extracted from the deduplicated coin flips
are exactly the numbers of categorical-branch (flip 0) and uniform-branch
(flip 1) coins, they always partition `num_resamples`, and the returned batch
is the categorical redraws followed by the fresh uniform draws, with exactly
`num_resamples` rows. -/
theorem relaxed_samples_partition (cs : List Bitstring) (flips : List Bool)
    (catIdx : ℕ → ℕ) (unifRow : ℕ → Bitstring) (m : ℕ)
    (hne : cs ≠ []) (hm : flips.length = m) :
    resampleChoicesOf flips = (flips.count false, flips.count true)
      ∧ (resampleChoicesOf flips).1 + (resampleChoicesOf flips).2 = m
      ∧ relaxedCategoricalSamples cs flips catIdx unifRow
          = ((List.range (resampleChoicesOf flips).1).map
              (fun i => (uniqueBitstringsWithCounts cs).1.getD (catIdx i) []))
            ++ ((List.range (resampleChoicesOf flips).2).map unifRow)
      ∧ (relaxedCategoricalSamples cs flips catIdx unifRow).length = m := by
  have hchoices := resampleChoicesOf_eq flips
  have hpart : (resampleChoicesOf flips).1 + (resampleChoicesOf flips).2 = m := by
    rw [hchoices]
    show flips.count false + flips.count true = m
    rw [count_false_add_count_true, hm]
  refine ⟨hchoices, hpart, rfl, ?_⟩
  show (((List.range (resampleChoicesOf flips).1).map
      (fun i => (uniqueBitstringsWithCounts cs).1.getD (catIdx i) []))
    ++ ((List.range (resampleChoicesOf flips).2).map unifRow)).length = m
  rw [List.length_append, List.length_map, List.length_map,
    List.length_range, List.length_range, hpart]

/-- Witness for the resampling partition theorem. -/
theorem relaxed_samples_partition_witness :
    ([[true]] : List Bitstring) ≠ []
      ∧ ([false, true, false] : List Bool).length = 3
      ∧ (relaxedCategoricalSamples [[true]] [false, true, false]
          (fun _ => 0) (fun _ => [false])).length = 3 :=
  ⟨by decide, rfl,
    (relaxed_samples_partition [[true]] [false, true, false]
      (fun _ => 0) (fun _ => [false]) 3 (by decide) rfl).2.2.2⟩
